import Mathlib

/-!
Verification development for the ga-extractor repository.

The repository converts aggregated analytics counters into synthetic
session / page-view-event records.  The core is the aggregate-to-event
expansion loop, implemented twice with identical allocation structure:
`_sql` in `ga4_extractor/extractor.py` and `__migrate_transform_umami`
in `ga_extractor/extractor.py`.  Supporting helpers are
`_safe_db_value` (SQL-literal escaping and truncation),
`_convert_ua_datetime` (strptime on the compact `%Y%m%d%H%M` key),
the legacy referrer normalization, and the closing watermark UPDATE
statement emitted by `migrate`.

This file shallowly embeds those parts: the expansion loop becomes a
pure function from an aggregate row to a stream of session / event
records (random `uuid4` identifiers become the values of a counter that
is threaded through, which preserves freshness and creation order), the
fallible timestamp conversion returns `Except`, and Python's
`datetime.strptime` is embedded with the exact per-directive regular
expressions of CPython's `_strptime` module, including their
one-or-two-digit alternatives and backtracking.
-/

namespace GA

/-- An input aggregate row: the nine ordered dimension values of the
report together with the `(page_views, sessions)` metric pair, after the
`int(...)` conversions performed by the source. -/
structure AggregateRow where
  url : String
  title : String
  browser : String
  os : String
  device : String
  screen : String
  date_hour_minute : String
  country : String
  referrer : String
  page_views : Nat
  sessions : Nat
deriving DecidableEq, Repr

/-- The `Session` NamedTuple of the source.  `uuid.UUID` identifiers are
modelled as the natural numbers produced by a fresh-value counter. -/
structure Session where
  session_id : Nat
  website_id : String
  created_at : String
  hostname : String
  browser : String
  os : String
  device : String
  screen : String
  country : String
deriving DecidableEq, Repr

/-- The `WebsiteEvent` NamedTuple of the source. -/
structure WebsiteEvent where
  id : Nat
  website_id : String
  session_id : Nat
  created_at : String
  url : String
  title : String
  referrer : String
deriving DecidableEq, Repr

/-- One element of the expansion output stream, in the order the source
appends to `sql_inserts`: either a session record or an event record. -/
inductive OutRec where
  | sess (s : Session)
  | ev (e : WebsiteEvent)
deriving DecidableEq, Repr

/-- Construction of a `Session` from a row, as in the three branches of
the source (all dimension-derived fields are copied from the row). -/
def mkSession (r : AggregateRow) (wid host ts : String) (sid : Nat) : Session :=
  ⟨sid, wid, ts, host, r.browser, r.os, r.device, r.screen, r.country⟩

/-- Construction of a `WebsiteEvent` from a row, as in the source. -/
def mkEvent (r : AggregateRow) (wid ts ref : String) (eid sid : Nat) : WebsiteEvent :=
  ⟨eid, wid, sid, ts, r.url, r.title, ref⟩

/-- The loop `for i in range(n): session; one event` (equal branch, and
the first loop of the remainder branch): each iteration draws a fresh
session id `c` and a fresh event id `c+1`. -/
def pairRecs (r : AggregateRow) (wid host ts ref : String) : Nat → Nat → List OutRec
  | _, 0 => []
  | c, n + 1 =>
    .sess (mkSession r wid host ts c) :: .ev (mkEvent r wid ts ref (c + 1) c) ::
      pairRecs r wid host ts ref (c + 2) n

/-- The loop `for i in range(n): one event` attached to session `sid`,
drawing fresh event ids starting at `c` (inner loop of the evenly
divisible branch, and the trailing loop of the remainder branch). -/
def evRun (r : AggregateRow) (wid ts ref : String) (sid : Nat) : Nat → Nat → List OutRec
  | _, 0 => []
  | c, n + 1 => .ev (mkEvent r wid ts ref c sid) :: evRun r wid ts ref sid (c + 1) n

/-- The loop of the evenly divisible branch: `n` sessions, each followed
by `g` events owned by it. -/
def groupRecs (r : AggregateRow) (wid host ts ref : String) (g : Nat) : Nat → Nat → List OutRec
  | _, 0 => []
  | c, n + 1 =>
    .sess (mkSession r wid host ts c) ::
      (evRun r wid ts ref c (c + 1) g ++ groupRecs r wid host ts ref g (c + 1 + g) n)

/-- The allocation core of `_sql` / `__migrate_transform_umami` for one
row, given the already-converted timestamp `ts` and normalized referrer
`ref`: `sessions` is coerced by `max(sessions, 1)`, then the three
branches `page_views == sessions`, `page_views % sessions == 0`, and the
remainder branch (one event per session, then `page_views - sessions`
extra events on the last created session's id) are selected exactly as
in the source.  Returns the record stream and the next fresh id. -/
def expandRowTs (r : AggregateRow) (wid host ts ref : String) (c : Nat) : List OutRec × Nat :=
  if r.page_views = max r.sessions 1 then
    (pairRecs r wid host ts ref c (max r.sessions 1), c + 2 * max r.sessions 1)
  else if r.page_views % max r.sessions 1 = 0 then
    (groupRecs r wid host ts ref (r.page_views / max r.sessions 1) c (max r.sessions 1),
      c + max r.sessions 1 * (1 + r.page_views / max r.sessions 1))
  else
    (pairRecs r wid host ts ref c (max r.sessions 1) ++
      evRun r wid ts ref (c + 2 * (max r.sessions 1 - 1)) (c + 2 * max r.sessions 1)
        (r.page_views - max r.sessions 1),
      c + 2 * max r.sessions 1 + (r.page_views - max r.sessions 1))

/-- The session records of an output stream, in creation order. -/
def sessionsOf : List OutRec → List Session
  | [] => []
  | .sess s :: t => s :: sessionsOf t
  | .ev _ :: t => sessionsOf t

/-- The event records of an output stream, in creation order. -/
def eventsOf : List OutRec → List WebsiteEvent
  | [] => []
  | .sess _ :: t => eventsOf t
  | .ev e :: t => e :: eventsOf t

/-- Number of session records in a stream. -/
def numSessions (l : List OutRec) : Nat := (sessionsOf l).length

/-- Number of event records in a stream. -/
def numEvents (l : List OutRec) : Nat := (eventsOf l).length

/-- Number of event records owned by the session with id `sid`. -/
def numEventsFor (sid : Nat) (l : List OutRec) : Nat :=
  ((eventsOf l).filter (fun e => e.session_id = sid)).length

/-- Per-session event counts, listed in session creation order. -/
def eventCounts (l : List OutRec) : List Nat :=
  (sessionsOf l).map (fun s => numEventsFor s.session_id l)

/-- An event record carries exactly the row's dimension-derived fields
(the fields the source copies from the row into each `WebsiteEvent`). -/
def eventFromRow (r : AggregateRow) (wid ts ref : String) (e : WebsiteEvent) : Prop :=
  e.website_id = wid ∧ e.created_at = ts ∧ e.url = r.url ∧ e.title = r.title ∧
    e.referrer = ref

/-- A session record carries exactly the row's dimension-derived fields
(the fields the source copies from the row into each `Session`). -/
def sessionFromRow (r : AggregateRow) (wid host ts : String) (s : Session) : Prop :=
  s.website_id = wid ∧ s.created_at = ts ∧ s.hostname = host ∧ s.browser = r.browser ∧
    s.os = r.os ∧ s.device = r.device ∧ s.screen = r.screen ∧ s.country = r.country

/-- Boolean check that all events of a list agree on `url`, `title`,
`referrer`, `created_at` and `website_id` (the non-identifier fields of
`WebsiteEvent`). -/
def allSameEv : List WebsiteEvent → Bool
  | [] => true
  | e :: rest =>
    rest.all (fun x =>
      x.url == e.url && x.title == e.title && x.referrer == e.referrer &&
        x.created_at == e.created_at && x.website_id == e.website_id)

/-- Boolean check that all sessions of a list agree on `browser`, `os`,
`device`, `screen`, `country`, `created_at`, `hostname` and `website_id`
(the non-identifier fields of `Session`). -/
def allSameSess : List Session → Bool
  | [] => true
  | s :: rest =>
    rest.all (fun x =>
      x.browser == s.browser && x.os == s.os && x.device == s.device &&
        x.screen == s.screen && x.country == s.country && x.created_at == s.created_at &&
        x.hostname == s.hostname && x.website_id == s.website_id)

/-- Numeric value of a decimal digit character. -/
def digit (c : Char) : Nat := c.toNat - 48

/-- CPython `_strptime` directive `%Y`, regex `\d\d\d\d`: exactly four
digits. -/
def matchY : List Char → Option (Nat × List Char)
  | a :: b :: c :: d :: rest =>
    if a.isDigit ∧ b.isDigit ∧ c.isDigit ∧ d.isDigit then
      some (digit a * 1000 + digit b * 100 + digit c * 10 + digit d, rest)
    else none
  | _ => none

/-- CPython `_strptime` directive `%m`, regex `1[0-2]|0[1-9]|[1-9]`:
the possible matches in the regex's alternation (preference) order. -/
def matchM : List Char → List (Nat × List Char)
  | c1 :: c2 :: rest =>
    (if c1 = '1' ∧ '0' ≤ c2 ∧ c2 ≤ '2' then [(10 + digit c2, rest)] else []) ++
    (if c1 = '0' ∧ '1' ≤ c2 ∧ c2 ≤ '9' then [(digit c2, rest)] else []) ++
    (if '1' ≤ c1 ∧ c1 ≤ '9' then [(digit c1, c2 :: rest)] else [])
  | [c1] => if '1' ≤ c1 ∧ c1 ≤ '9' then [(digit c1, [])] else []
  | [] => []

/-- CPython `_strptime` directive `%d`, regex `3[01]|[12]\d|0[1-9]|[1-9]`. -/
def matchD : List Char → List (Nat × List Char)
  | c1 :: c2 :: rest =>
    (if c1 = '3' ∧ (c2 = '0' ∨ c2 = '1') then [(30 + digit c2, rest)] else []) ++
    (if (c1 = '1' ∨ c1 = '2') ∧ c2.isDigit then [(digit c1 * 10 + digit c2, rest)] else []) ++
    (if c1 = '0' ∧ '1' ≤ c2 ∧ c2 ≤ '9' then [(digit c2, rest)] else []) ++
    (if '1' ≤ c1 ∧ c1 ≤ '9' then [(digit c1, c2 :: rest)] else [])
  | [c1] => if '1' ≤ c1 ∧ c1 ≤ '9' then [(digit c1, [])] else []
  | [] => []

/-- CPython `_strptime` directive `%H`, regex `2[0-3]|[0-1]\d|\d`. -/
def matchH : List Char → List (Nat × List Char)
  | c1 :: c2 :: rest =>
    (if c1 = '2' ∧ '0' ≤ c2 ∧ c2 ≤ '3' then [(20 + digit c2, rest)] else []) ++
    (if (c1 = '0' ∨ c1 = '1') ∧ c2.isDigit then [(digit c1 * 10 + digit c2, rest)] else []) ++
    (if c1.isDigit then [(digit c1, c2 :: rest)] else [])
  | [c1] => if c1.isDigit then [(digit c1, [])] else []
  | [] => []

/-- CPython `_strptime` directive `%M`, regex `[0-5]\d|\d`. -/
def matchMin : List Char → List (Nat × List Char)
  | c1 :: c2 :: rest =>
    (if '0' ≤ c1 ∧ c1 ≤ '5' ∧ c2.isDigit then [(digit c1 * 10 + digit c2, rest)] else []) ++
    (if c1.isDigit then [(digit c1, c2 :: rest)] else [])
  | [c1] => if c1.isDigit then [(digit c1, [])] else []
  | [] => []

/-- Anchored match of the `%Y%m%d%H%M` pattern against a prefix of the
input, with the backtracking preference order of Python's `re.match`:
the first assignment (in alternation order) under which all five
directives match, together with the unconsumed remainder. -/
def strptimeMatch (cs : List Char) : Option ((Nat × Nat × Nat × Nat × Nat) × List Char) :=
  match matchY cs with
  | none => none
  | some (y, r1) =>
    (matchM r1).findSome? fun pm =>
      (matchD pm.2).findSome? fun pd =>
        (matchH pd.2).findSome? fun ph =>
          (matchMin ph.2).findSome? fun pmin =>
            some ((y, pm.1, pd.1, ph.1, pmin.1), pmin.2)

/-- Leap-year rule used by Python's `datetime`. -/
def isLeap (y : Nat) : Bool := y % 4 = 0 && (y % 100 != 0 || y % 400 = 0)

/-- Days in a month, as validated by the `datetime` constructor. -/
def daysInMonth (y m : Nat) : Nat :=
  if m = 2 then (if isLeap y then 29 else 28)
  else if m = 4 ∨ m = 6 ∨ m = 9 ∨ m = 11 then 30
  else 31

/-- Decimal rendering of `n` zero-padded to two characters (strftime
`%m`, `%d`, `%H`, `%M`). -/
def pad2 (n : Nat) : String := if n < 10 then "0" ++ toString n else toString n

/-- Decimal rendering of `n` zero-padded to four characters (strftime
`%Y`). -/
def pad4 (n : Nat) : String :=
  if n < 10 then "000" ++ toString n
  else if n < 100 then "00" ++ toString n
  else if n < 1000 then "0" ++ toString n
  else toString n

/-- The source's `_convert_ua_datetime`: strptime with the pattern
`%Y%m%d%H%M` followed by strftime with `%Y-%m-%d %H:%M:00.000+0200`.
`strptime` fails (raises `ValueError`, modelled as `Except.error`) when
the pattern does not match, when matched data remains unconsumed, or
when the matched fields do not form a valid calendar date (year 0, or a
day beyond the month's length).  The legacy `ga_extractor` variant
differs only in the fixed offset suffix (`+00` instead of `+0200`). -/
def convert_ua_datetime (s : String) : Except String String :=
  match strptimeMatch s.data with
  | none => Except.error "time data does not match format"
  | some ((y, m, d, h, mi), rest) =>
    if rest ≠ [] then Except.error "unconverted data remains"
    else if y = 0 then Except.error "year 0 is out of range"
    else if daysInMonth y m < d then Except.error "day is out of range for month"
    else
      Except.ok (pad4 y ++ "-" ++ pad2 m ++ "-" ++ pad2 d ++ " " ++ pad2 h ++ ":" ++
        pad2 mi ++ ":00.000+0200")

/-- The compact 12-digit YYYYMMDDHHMM group key format as the spec
describes it (two digits for each of month, day, hour and minute, with
the fields in range); stated from the spec's words for comparison with
the behaviour of `convert_ua_datetime`. -/
def twoDigits (cs : List Char) : Nat :=
  match cs with
  | a :: b :: _ => digit a * 10 + digit b
  | _ => 0

/-- Boolean check of the compact 12-digit YYYYMMDDHHMM shape. -/
def compactYmdHM (s : String) : Bool :=
  (s.data.length == 12) && s.data.all Char.isDigit &&
    Nat.ble 1 (twoDigits (s.data.drop 4)) && Nat.ble (twoDigits (s.data.drop 4)) 12 &&
    Nat.ble 1 (twoDigits (s.data.drop 6)) && Nat.ble (twoDigits (s.data.drop 6)) 31 &&
    Nat.ble (twoDigits (s.data.drop 8)) 23 && Nat.ble (twoDigits (s.data.drop 10)) 59

/-- Referrer normalization of the `ga4_extractor` path: keep the raw
value when `validators.url` accepts it, else the empty string.  The
validator itself is an external library, taken as a parameter. -/
def normRef (valid : String → Bool) (raw : String) : String :=
  if valid raw then raw else ""

/-- Referrer normalization of the legacy `ga_extractor` path
(`__migrate_transform_umami` lines 317-321): the scheme `https://` is
prepended, then `validators.url` is consulted, then the prefixed string
is compared against the literal `"google"`. -/
def normalize_referrer_legacy (valid : String → Bool) (raw : String) : String :=
  let referrer := "https://" ++ raw
  if !(valid referrer) then ""
  else if referrer = "google" then "https://google.com"
  else referrer

/-- Expansion of one aggregate row as the source performs it: referrer
normalization (which cannot fail), then the fallible timestamp
conversion, then the allocation branches of `expandRowTs`. -/
def expandRow (valid : String → Bool) (wid host : String) (r : AggregateRow) (c : Nat) :
    Except String (List OutRec × Nat) :=
  match convert_ua_datetime r.date_hour_minute with
  | .error e => .error e
  | .ok ts => .ok (expandRowTs r wid host ts (normRef valid r.referrer) c)

/-- The `for row in rows` loop of `_sql` / `__migrate_transform_umami`:
rows are expanded in order into one output stream; an exception raised
while converting any row's timestamp propagates and aborts the whole
transformation. -/
def transformRows (valid : String → Bool) (wid host : String) :
    List AggregateRow → Nat → Except String (List OutRec)
  | [], _ => .ok []
  | r :: rest, c =>
    match expandRow valid wid host r c with
    | .error e => .error e
    | .ok (recs, c') =>
      match transformRows valid wid host rest c' with
      | .error e => .error e
      | .ok more => .ok (recs ++ more)

/-- Check that an `Except` result is a failure. -/
def exceptFailed : Except String (List OutRec) → Bool
  | .error _ => true
  | .ok _ => false

/-- The source's `_safe_db_value`, over explicit character lists:
`str.replace(chr(39), two quotes)[:length] if str else empty`.  A `none`
input models Python `None` (for example `urlparse(...).hostname` can be
`None`); both `None` and the empty string are falsy. -/
def doubleQuotes : List Char → List Char
  | [] => []
  | c :: rest =>
    if c = '\'' then '\'' :: '\'' :: doubleQuotes rest else c :: doubleQuotes rest

/-- The escaping helper `_safe_db_value` itself. -/
def safe_db_value (s : Option (List Char)) (length : Nat) : List Char :=
  match s with
  | none => []
  | some cs => if cs = [] then [] else (doubleQuotes cs).take length

mutual

/-- Boolean check that every single-quote character of a list occurs as
part of an immediately adjacent doubled pair. -/
def quotesPaired : List Char → Bool
  | [] => true
  | c :: rest => if c = '\'' then quoteTail rest else quotesPaired rest

/-- After one single quote, exactly one more quote must follow. -/
def quoteTail : List Char → Bool
  | [] => false
  | c :: rest => if c = '\'' then quotesPaired rest else false

end

/-- Prefix test on character lists. -/
def startsWithL : List Char → List Char → Bool
  | _, [] => true
  | [], _ :: _ => false
  | c :: cs, p :: ps => c == p && startsWithL cs ps

/-- Substring test on character lists. -/
def containsSub : List Char → List Char → Bool
  | [], pat => startsWithL [] pat
  | c :: cs, pat => startsWithL (c :: cs) pat || containsSub cs pat

/-- Text of the closing watermark UPDATE statement before the website
id (from `migrate` in both extractors). -/
def watermarkPre : String :=
  "WITH r AS (SELECT TO_CHAR(created_at, 'yyyy-mm-ddT00:00:00')::date as reset_time, website_id FROM public.website_event WHERE website_id = '"

/-- Text of the closing watermark UPDATE statement after the website
id. -/
def watermarkPost : String :=
  "' ORDER BY event_id DESC LIMIT 1) UPDATE public.website SET reset_at = r.reset_time, created_at = r.reset_time FROM r WHERE public.website.website_id = r.website_id;"

/-- The closing watermark UPDATE statement emitted once per `migrate`
run, with the website id interpolated. -/
def watermark_stmt (website_id : String) : String :=
  watermarkPre ++ website_id ++ watermarkPost

/-- The statement stream written by `migrate` in relational-insert
(Umami) mode: all insert statements, then the single watermark
statement. -/
def umami_output (inserts : List String) (website_id : String) : List String :=
  inserts ++ [watermark_stmt website_id]

/-- Recognizer for the watermark statement (its fixed leading text). -/
def isWatermark (s : String) : Bool := startsWithL s.data ("WITH r AS").data

/-- Boolean check that every per-session event count is at least one. -/
def countsAtLeastOne (l : List Nat) : Bool := l.all (fun x => decide (1 ≤ x))

/-- Concrete row with `page_views = 1`, `sessions = 2` (a zero-remainder
shortfall: fewer views than sessions). -/
def rowC1 : AggregateRow :=
  ⟨"/a", "A", "Chrome", "Win", "desktop", "1920x1080", "202401010930", "US", "", 1, 2⟩

/-- Concrete row with `page_views = 5`, `sessions = 2` (the spec's own
remainder example). -/
def rowC2 : AggregateRow :=
  ⟨"/a", "A", "Chrome", "Win", "desktop", "1920x1080", "202401010930", "US", "bad value",
    5, 2⟩

/-- Concrete row with `page_views = 6`, `sessions = 3` (evenly
divisible). -/
def rowC3 : AggregateRow :=
  ⟨"/a", "A", "Chrome", "Win", "desktop", "1920x1080", "202401010930", "US", "", 6, 3⟩

/-- Concrete row with `page_views = 7`, `sessions = 3` (remainder). -/
def rowC4 : AggregateRow :=
  ⟨"/a", "A", "Chrome", "Win", "desktop", "1920x1080", "202401010930", "US", "", 7, 3⟩

/-- Concrete row with `page_views = 0`, `sessions = 1`. -/
def rowC4x : AggregateRow :=
  ⟨"/a", "A", "Chrome", "Win", "desktop", "1920x1080", "202401010930", "US", "", 0, 1⟩

/-- Concrete row with `page_views = 1`, `sessions = 3` (fewer views than
sessions). -/
def rowC6 : AggregateRow :=
  ⟨"/a", "A", "Chrome", "Win", "desktop", "1920x1080", "202401010930", "US", "", 1, 3⟩

/-- Concrete row whose `date_hour_minute` value does not match the
`%Y%m%d%H%M` pattern. -/
def rowC10 : AggregateRow :=
  ⟨"/a", "A", "Chrome", "Win", "desktop", "1920x1080", "2024-01-01 09:30", "US", "", 1, 1⟩

/-- A sample insert-statement stream for the watermark theorem. -/
def insertsC9 : List String :=
  ["INSERT INTO public.session (session_id) VALUES ('x');"]

theorem sessionsOf_append (a b : List OutRec) :
    sessionsOf (a ++ b) = sessionsOf a ++ sessionsOf b := by
  induction a with
  | nil => rfl
  | cons x t ih => cases x <;> simp [sessionsOf, ih]

theorem eventsOf_append (a b : List OutRec) :
    eventsOf (a ++ b) = eventsOf a ++ eventsOf b := by
  induction a with
  | nil => rfl
  | cons x t ih => cases x <;> simp [eventsOf, ih]

theorem numEventsFor_append (sid : Nat) (a b : List OutRec) :
    numEventsFor sid (a ++ b) = numEventsFor sid a + numEventsFor sid b := by
  simp [numEventsFor, eventsOf_append, List.filter_append]

theorem numEvents_append (a b : List OutRec) :
    numEvents (a ++ b) = numEvents a + numEvents b := by
  simp [numEvents, eventsOf_append]

theorem numSessions_append (a b : List OutRec) :
    numSessions (a ++ b) = numSessions a + numSessions b := by
  simp [numSessions, sessionsOf_append]

theorem sessionsOf_evRun (r : AggregateRow) (wid ts ref : String) (sid : Nat) :
    ∀ n c, sessionsOf (evRun r wid ts ref sid c n) = [] := by
  intro n
  induction n with
  | zero => intro c; rfl
  | succ n ih => intro c; simp [evRun, sessionsOf, ih]

theorem numEvents_evRun (r : AggregateRow) (wid ts ref : String) (sid : Nat) :
    ∀ n c, numEvents (evRun r wid ts ref sid c n) = n := by
  intro n
  induction n with
  | zero => intro c; rfl
  | succ n ih => intro c; simp [evRun, numEvents, eventsOf] at ih ⊢; exact ih _

theorem numEventsFor_evRun (r : AggregateRow) (wid ts ref : String) (sid sid' : Nat) :
    ∀ n c, numEventsFor sid' (evRun r wid ts ref sid c n) = if sid = sid' then n else 0 := by
  intro n
  induction n with
  | zero => intro c; simp [evRun, numEventsFor, eventsOf]
  | succ n ih =>
    intro c
    have ihc := ih (c + 1)
    simp only [numEventsFor] at ihc
    simp only [evRun, numEventsFor, eventsOf, List.filter_cons]
    by_cases h : sid = sid'
    · subst h
      simp [mkEvent, ihc]
    · simp [mkEvent, h, ihc]

theorem numSessions_pairRecs (r : AggregateRow) (wid host ts ref : String) :
    ∀ n c, numSessions (pairRecs r wid host ts ref c n) = n := by
  intro n
  induction n with
  | zero => intro c; rfl
  | succ n ih =>
    intro c
    simp only [pairRecs, numSessions, sessionsOf, List.length_cons] at ih ⊢
    exact congrArg (· + 1) (ih _)

theorem numEvents_pairRecs (r : AggregateRow) (wid host ts ref : String) :
    ∀ n c, numEvents (pairRecs r wid host ts ref c n) = n := by
  intro n
  induction n with
  | zero => intro c; rfl
  | succ n ih =>
    intro c
    simp only [pairRecs, numEvents, eventsOf, List.length_cons] at ih ⊢
    exact congrArg (· + 1) (ih _)

theorem numSessions_groupRecs (r : AggregateRow) (wid host ts ref : String) (g : Nat) :
    ∀ n c, numSessions (groupRecs r wid host ts ref g c n) = n := by
  intro n
  induction n with
  | zero => intro c; rfl
  | succ n ih =>
    intro c
    simp only [groupRecs, numSessions, sessionsOf, sessionsOf_append, sessionsOf_evRun,
      List.nil_append, List.length_cons] at ih ⊢
    exact congrArg (· + 1) (ih _)

theorem numEvents_groupRecs (r : AggregateRow) (wid host ts ref : String) (g : Nat) :
    ∀ n c, numEvents (groupRecs r wid host ts ref g c n) = n * g := by
  intro n
  induction n with
  | zero => intro c; simp [groupRecs, numEvents, eventsOf]
  | succ n ih =>
    intro c
    simp only [groupRecs, numEvents, eventsOf, eventsOf_append] at ih ⊢
    simp only [List.length_append]
    have h1 : (eventsOf (evRun r wid ts ref c (c + 1) g)).length = g :=
      numEvents_evRun r wid ts ref c g (c + 1)
    have h2 := ih (c + 1 + g)
    simp only [numEvents] at h2
    rw [h1, h2, Nat.succ_mul, Nat.add_comm]

theorem numEventsFor_cons_sess (sid : Nat) (s : Session) (t : List OutRec) :
    numEventsFor sid (.sess s :: t) = numEventsFor sid t := rfl

theorem numEventsFor_cons_ev (sid : Nat) (e : WebsiteEvent) (t : List OutRec) :
    numEventsFor sid (.ev e :: t) =
      (if e.session_id = sid then 1 else 0) + numEventsFor sid t := by
  simp only [numEventsFor, eventsOf, List.filter_cons]
  by_cases h : e.session_id = sid <;> simp [h, Nat.add_comm]

theorem mkSession_session_id (r : AggregateRow) (wid host ts : String) (sid : Nat) :
    (mkSession r wid host ts sid).session_id = sid := rfl

theorem mkEvent_session_id (r : AggregateRow) (wid ts ref : String) (eid sid : Nat) :
    (mkEvent r wid ts ref eid sid).session_id = sid := rfl

theorem pairRecs_succ (r : AggregateRow) (wid host ts ref : String) (c n : Nat) :
    pairRecs r wid host ts ref c (n + 1) =
      .sess (mkSession r wid host ts c) :: .ev (mkEvent r wid ts ref (c + 1) c) ::
        pairRecs r wid host ts ref (c + 2) n := rfl

theorem groupRecs_succ (r : AggregateRow) (wid host ts ref : String) (g c n : Nat) :
    groupRecs r wid host ts ref g c (n + 1) =
      .sess (mkSession r wid host ts c) ::
        (evRun r wid ts ref c (c + 1) g ++ groupRecs r wid host ts ref g (c + 1 + g) n) := rfl

theorem numEventsFor_pairRecs_lb (r : AggregateRow) (wid host ts ref : String) :
    ∀ n c sid, sid < c → numEventsFor sid (pairRecs r wid host ts ref c n) = 0 := by
  intro n
  induction n with
  | zero => intro c sid _; rfl
  | succ n ih =>
    intro c sid h
    simp only [pairRecs, numEventsFor_cons_sess, numEventsFor_cons_ev, mkEvent]
    rw [if_neg (by omega), ih (c + 2) sid (by omega)]

theorem sessionsOf_pairRecs_lb (r : AggregateRow) (wid host ts ref : String) :
    ∀ n c, ∀ s ∈ sessionsOf (pairRecs r wid host ts ref c n), c ≤ s.session_id := by
  intro n
  induction n with
  | zero => intro c s h; simp [pairRecs, sessionsOf] at h
  | succ n ih =>
    intro c s h
    simp only [pairRecs, sessionsOf, List.mem_cons] at h
    rcases h with h | h
    · subst h; simp [mkSession]
    · have := ih (c + 2) s h
      omega

theorem numEventsFor_groupRecs_lb (r : AggregateRow) (wid host ts ref : String) (g : Nat) :
    ∀ n c sid, sid < c → numEventsFor sid (groupRecs r wid host ts ref g c n) = 0 := by
  intro n
  induction n with
  | zero => intro c sid _; rfl
  | succ n ih =>
    intro c sid h
    simp only [groupRecs, numEventsFor_cons_sess, numEventsFor_append]
    rw [numEventsFor_evRun, if_neg (by omega), ih (c + 1 + g) sid (by omega)]

theorem sessionsOf_groupRecs_lb (r : AggregateRow) (wid host ts ref : String) (g : Nat) :
    ∀ n c, ∀ s ∈ sessionsOf (groupRecs r wid host ts ref g c n), c ≤ s.session_id := by
  intro n
  induction n with
  | zero => intro c s h; simp [groupRecs, sessionsOf] at h
  | succ n ih =>
    intro c s h
    simp only [groupRecs, sessionsOf, sessionsOf_append, sessionsOf_evRun, List.nil_append,
      List.mem_cons] at h
    rcases h with h | h
    · subst h; simp [mkSession]
    · have := ih (c + 1 + g) s h
      omega

theorem eventCounts_eq (l : List OutRec) :
    eventCounts l = (sessionsOf l).map (fun s => numEventsFor s.session_id l) := rfl

theorem sessionsOf_cons_sess (s : Session) (t : List OutRec) :
    sessionsOf (.sess s :: t) = s :: sessionsOf t := rfl

theorem sessionsOf_cons_ev (e : WebsiteEvent) (t : List OutRec) :
    sessionsOf (.ev e :: t) = sessionsOf t := rfl

theorem eventCounts_pairRecs_tail (r : AggregateRow) (wid host ts ref : String) :
    ∀ n c (tail : List OutRec), sessionsOf tail = [] →
      (∀ sid, sid < c + 2 * n → numEventsFor sid tail = 0) →
      eventCounts (pairRecs r wid host ts ref c (n + 1) ++ tail) =
        List.replicate n 1 ++ [1 + numEventsFor (c + 2 * n) tail] := by
  intro n
  induction n with
  | zero =>
    intro c tail hsess hlb
    rw [pairRecs_succ, List.cons_append, List.cons_append,
      show pairRecs r wid host ts ref (c + 2) 0 = [] from rfl, List.nil_append,
      eventCounts_eq, sessionsOf_cons_sess, sessionsOf_cons_ev, hsess, List.map_cons,
      List.map_nil, mkSession_session_id, numEventsFor_cons_sess, numEventsFor_cons_ev,
      mkEvent_session_id, if_pos rfl]
    simp
  | succ n ih =>
    intro c tail hsess hlb
    have hsid : c + 2 * (n + 1) = (c + 2) + 2 * n := by omega
    rw [pairRecs_succ, List.cons_append, List.cons_append, eventCounts_eq,
      sessionsOf_cons_sess, sessionsOf_cons_ev, List.map_cons, mkSession_session_id,
      List.replicate_succ, List.cons_append]
    congr 1
    · rw [numEventsFor_cons_sess, numEventsFor_cons_ev, mkEvent_session_id, if_pos rfl,
        numEventsFor_append,
        numEventsFor_pairRecs_lb r wid host ts ref (n + 1) (c + 2) c (by omega),
        hlb c (by omega)]
    · have hmc : ∀ s ∈ sessionsOf (pairRecs r wid host ts ref (c + 2) (n + 1) ++ tail),
          numEventsFor s.session_id
            (OutRec.sess (mkSession r wid host ts c) ::
              OutRec.ev (mkEvent r wid ts ref (c + 1) c) ::
                (pairRecs r wid host ts ref (c + 2) (n + 1) ++ tail)) =
          numEventsFor s.session_id (pairRecs r wid host ts ref (c + 2) (n + 1) ++ tail) := by
        intro s hs
        have hlbs : c + 2 ≤ s.session_id := by
          rw [sessionsOf_append, hsess, List.append_nil] at hs
          exact sessionsOf_pairRecs_lb r wid host ts ref (n + 1) (c + 2) s hs
        rw [numEventsFor_cons_sess, numEventsFor_cons_ev, mkEvent_session_id,
          if_neg (by omega), Nat.zero_add]
      rw [List.map_congr_left hmc, ← eventCounts_eq, hsid]
      exact ih (c + 2) tail hsess (fun sid h => hlb sid (by omega))

theorem eventCounts_pairRecs (r : AggregateRow) (wid host ts ref : String) (n c : Nat) :
    eventCounts (pairRecs r wid host ts ref c (n + 1)) = List.replicate (n + 1) 1 := by
  have h := eventCounts_pairRecs_tail r wid host ts ref n c [] rfl (fun sid _ => rfl)
  rw [List.append_nil] at h
  rw [h, List.replicate_succ']
  rfl

theorem eventCounts_pair_evRun (r : AggregateRow) (wid host ts ref : String)
    (n c c' m : Nat) :
    eventCounts (pairRecs r wid host ts ref c (n + 1) ++
        evRun r wid ts ref (c + 2 * n) c' m) =
      List.replicate n 1 ++ [1 + m] := by
  have h := eventCounts_pairRecs_tail r wid host ts ref n c
    (evRun r wid ts ref (c + 2 * n) c' m) (sessionsOf_evRun r wid ts ref (c + 2 * n) m c')
    (fun sid hlt => by rw [numEventsFor_evRun, if_neg (by omega)])
  rw [h, numEventsFor_evRun, if_pos rfl]

theorem eventCounts_groupRecs (r : AggregateRow) (wid host ts ref : String) (g : Nat) :
    ∀ n c, eventCounts (groupRecs r wid host ts ref g c n) = List.replicate n g := by
  intro n
  induction n with
  | zero => intro c; simp [groupRecs, eventCounts, sessionsOf]
  | succ n ih =>
    intro c
    rw [groupRecs_succ, eventCounts_eq, sessionsOf_cons_sess, sessionsOf_append,
      sessionsOf_evRun, List.nil_append, List.map_cons, mkSession_session_id,
      List.replicate_succ]
    congr 1
    · rw [numEventsFor_cons_sess, numEventsFor_append, numEventsFor_evRun, if_pos rfl,
        numEventsFor_groupRecs_lb r wid host ts ref g n (c + 1 + g) c (by omega)]
      omega
    · have hmc : ∀ s ∈ sessionsOf (groupRecs r wid host ts ref g (c + 1 + g) n),
          numEventsFor s.session_id
            (OutRec.sess (mkSession r wid host ts c) ::
              (evRun r wid ts ref c (c + 1) g ++
                groupRecs r wid host ts ref g (c + 1 + g) n)) =
          numEventsFor s.session_id (groupRecs r wid host ts ref g (c + 1 + g) n) := by
        intro s hs
        have hlbs : c + 1 + g ≤ s.session_id :=
          sessionsOf_groupRecs_lb r wid host ts ref g n (c + 1 + g) s hs
        rw [numEventsFor_cons_sess, numEventsFor_append, numEventsFor_evRun,
          if_neg (by omega), Nat.zero_add]
      rw [List.map_congr_left hmc, ← eventCounts_eq]
      exact ih (c + 1 + g)

theorem eventFromRow_pairRecs (r : AggregateRow) (wid host ts ref : String) :
    ∀ n c, ∀ e ∈ eventsOf (pairRecs r wid host ts ref c n), eventFromRow r wid ts ref e := by
  intro n
  induction n with
  | zero => intro c e h; simp [pairRecs, eventsOf] at h
  | succ n ih =>
    intro c e h
    simp only [pairRecs, eventsOf, List.mem_cons] at h
    rcases h with h | h
    · subst h; exact ⟨rfl, rfl, rfl, rfl, rfl⟩
    · exact ih (c + 2) e h

theorem eventFromRow_evRun (r : AggregateRow) (wid ts ref : String) (sid : Nat) :
    ∀ n c, ∀ e ∈ eventsOf (evRun r wid ts ref sid c n), eventFromRow r wid ts ref e := by
  intro n
  induction n with
  | zero => intro c e h; simp [evRun, eventsOf] at h
  | succ n ih =>
    intro c e h
    simp only [evRun, eventsOf, List.mem_cons] at h
    rcases h with h | h
    · subst h; exact ⟨rfl, rfl, rfl, rfl, rfl⟩
    · exact ih (c + 1) e h

theorem eventFromRow_groupRecs (r : AggregateRow) (wid host ts ref : String) (g : Nat) :
    ∀ n c, ∀ e ∈ eventsOf (groupRecs r wid host ts ref g c n),
      eventFromRow r wid ts ref e := by
  intro n
  induction n with
  | zero => intro c e h; simp [groupRecs, eventsOf] at h
  | succ n ih =>
    intro c e h
    simp only [groupRecs, eventsOf, eventsOf_append, List.mem_cons, List.mem_append] at h
    rcases h with h | h
    · exact eventFromRow_evRun r wid ts ref c g (c + 1) e h
    · exact ih (c + 1 + g) e h

theorem sessionFromRow_pairRecs (r : AggregateRow) (wid host ts ref : String) :
    ∀ n c, ∀ s ∈ sessionsOf (pairRecs r wid host ts ref c n),
      sessionFromRow r wid host ts s := by
  intro n
  induction n with
  | zero => intro c s h; simp [pairRecs, sessionsOf] at h
  | succ n ih =>
    intro c s h
    simp only [pairRecs, sessionsOf, List.mem_cons] at h
    rcases h with h | h
    · subst h; exact ⟨rfl, rfl, rfl, rfl, rfl, rfl, rfl, rfl⟩
    · exact ih (c + 2) s h

theorem sessionFromRow_groupRecs (r : AggregateRow) (wid host ts ref : String) (g : Nat) :
    ∀ n c, ∀ s ∈ sessionsOf (groupRecs r wid host ts ref g c n),
      sessionFromRow r wid host ts s := by
  intro n
  induction n with
  | zero => intro c s h; simp [groupRecs, sessionsOf] at h
  | succ n ih =>
    intro c s h
    simp only [groupRecs, sessionsOf, sessionsOf_append, sessionsOf_evRun, List.nil_append,
      List.mem_cons] at h
    rcases h with h | h
    · subst h; exact ⟨rfl, rfl, rfl, rfl, rfl, rfl, rfl, rfl⟩
    · exact ih (c + 1 + g) s h

theorem allSameEv_of_fromRow (r : AggregateRow) (wid ts ref : String)
    (l : List WebsiteEvent) (h : ∀ e ∈ l, eventFromRow r wid ts ref e) :
    allSameEv l = true := by
  cases l with
  | nil => rfl
  | cons e rest =>
    simp only [allSameEv, List.all_eq_true]
    intro x hx
    obtain ⟨hw0, hc0, hu0, ht0, hr0⟩ := h e (List.mem_cons_self e rest)
    obtain ⟨hw, hc, hu, ht, hr⟩ := h x (List.mem_cons_of_mem e hx)
    simp [hw0, hc0, hu0, ht0, hr0, hw, hc, hu, ht, hr]

theorem allSameSess_of_fromRow (r : AggregateRow) (wid host ts : String)
    (l : List Session) (h : ∀ s ∈ l, sessionFromRow r wid host ts s) :
    allSameSess l = true := by
  cases l with
  | nil => rfl
  | cons s rest =>
    simp only [allSameSess, List.all_eq_true]
    intro x hx
    obtain ⟨hw0, hc0, hh0, hb0, ho0, hd0, hs0, hn0⟩ := h s (List.mem_cons_self s rest)
    obtain ⟨hw, hc, hh, hb, ho, hd, hs', hn⟩ := h x (List.mem_cons_of_mem s hx)
    simp [hw0, hc0, hh0, hb0, ho0, hd0, hs0, hn0, hw, hc, hh, hb, ho, hd, hs', hn]

theorem numSessions_evRun (r : AggregateRow) (wid ts ref : String) (sid n c : Nat) :
    numSessions (evRun r wid ts ref sid c n) = 0 := by
  rw [numSessions, sessionsOf_evRun]
  rfl

theorem expandRowTs_fst_equal (r : AggregateRow) (wid host ts ref : String) (c : Nat)
    (h : r.page_views = max r.sessions 1) :
    (expandRowTs r wid host ts ref c).1 =
      pairRecs r wid host ts ref c (max r.sessions 1) := by
  rw [expandRowTs, if_pos h]

theorem expandRowTs_fst_div (r : AggregateRow) (wid host ts ref : String) (c : Nat)
    (h1 : r.page_views ≠ max r.sessions 1) (h2 : r.page_views % max r.sessions 1 = 0) :
    (expandRowTs r wid host ts ref c).1 =
      groupRecs r wid host ts ref (r.page_views / max r.sessions 1) c
        (max r.sessions 1) := by
  rw [expandRowTs, if_neg h1, if_pos h2]

theorem expandRowTs_fst_rem (r : AggregateRow) (wid host ts ref : String) (c : Nat)
    (h1 : r.page_views ≠ max r.sessions 1) (h2 : r.page_views % max r.sessions 1 ≠ 0) :
    (expandRowTs r wid host ts ref c).1 =
      pairRecs r wid host ts ref c (max r.sessions 1) ++
        evRun r wid ts ref (c + 2 * (max r.sessions 1 - 1)) (c + 2 * max r.sessions 1)
          (r.page_views - max r.sessions 1) := by
  rw [expandRowTs, if_neg h1, if_neg h2]

theorem pairRecs_sessions_irrel (r : AggregateRow) (k : Nat) (wid host ts ref : String) :
    ∀ n c, pairRecs {r with sessions := k} wid host ts ref c n =
      pairRecs r wid host ts ref c n := by
  intro n
  induction n with
  | zero => intro c; rfl
  | succ n ih =>
    intro c
    rw [pairRecs_succ, pairRecs_succ, ih]
    rfl

theorem evRun_succ (r : AggregateRow) (wid ts ref : String) (sid c n : Nat) :
    evRun r wid ts ref sid c (n + 1) =
      .ev (mkEvent r wid ts ref c sid) :: evRun r wid ts ref sid (c + 1) n := rfl

theorem evRun_sessions_irrel (r : AggregateRow) (k : Nat) (wid ts ref : String) (sid : Nat) :
    ∀ n c, evRun {r with sessions := k} wid ts ref sid c n = evRun r wid ts ref sid c n := by
  intro n
  induction n with
  | zero => intro c; rfl
  | succ n ih =>
    intro c
    rw [evRun_succ, evRun_succ, ih]
    rfl

theorem groupRecs_sessions_irrel (r : AggregateRow) (k : Nat) (wid host ts ref : String)
    (g : Nat) :
    ∀ n c, groupRecs {r with sessions := k} wid host ts ref g c n =
      groupRecs r wid host ts ref g c n := by
  intro n
  induction n with
  | zero => intro c; rfl
  | succ n ih =>
    intro c
    rw [groupRecs_succ, groupRecs_succ, evRun_sessions_irrel, ih]
    rfl

/-- C1 (amended): for every AggregateRow, expansion produces exactly
`max(sessions, 1)` synthetic sessions, and a row with `sessions = 0` is
expanded exactly as if `sessions = 1`; the total number of synthetic
events equals `page_views` when `page_views` is a multiple of
`max(sessions, 1)` and otherwise equals
`max(page_views, max(sessions, 1))` — in particular, when
`0 < page_views < max(sessions, 1)` the remainder branch emits one event
per session and the event total exceeds `page_views`. -/
theorem spec_C1 (r : AggregateRow) (wid host ts ref : String) (c : Nat) :
    numSessions (expandRowTs r wid host ts ref c).1 = max r.sessions 1 ∧
    numEvents (expandRowTs r wid host ts ref c).1 =
      (if r.page_views % max r.sessions 1 = 0 then r.page_views
        else max r.page_views (max r.sessions 1)) ∧
    expandRowTs {r with sessions := 0} wid host ts ref c =
      expandRowTs {r with sessions := 1} wid host ts ref c := by
  refine ⟨?_, ?_, ?_⟩
  · by_cases h1 : r.page_views = max r.sessions 1
    · rw [expandRowTs_fst_equal r wid host ts ref c h1, numSessions_pairRecs]
    · by_cases h2 : r.page_views % max r.sessions 1 = 0
      · rw [expandRowTs_fst_div r wid host ts ref c h1 h2, numSessions_groupRecs]
      · rw [expandRowTs_fst_rem r wid host ts ref c h1 h2, numSessions_append,
          numSessions_pairRecs, numSessions_evRun]
        omega
  · by_cases h1 : r.page_views = max r.sessions 1
    · rw [expandRowTs_fst_equal r wid host ts ref c h1, numEvents_pairRecs,
        if_pos (by rw [h1, Nat.mod_self])]
      exact h1.symm
    · by_cases h2 : r.page_views % max r.sessions 1 = 0
      · rw [expandRowTs_fst_div r wid host ts ref c h1 h2, numEvents_groupRecs, if_pos h2]
        exact Nat.mul_div_cancel' (Nat.dvd_of_mod_eq_zero h2)
      · rw [expandRowTs_fst_rem r wid host ts ref c h1 h2, numEvents_append,
          numEvents_pairRecs, numEvents_evRun, if_neg h2]
        rcases Nat.le_total r.page_views (max r.sessions 1) with h | h
        · rw [Nat.sub_eq_zero_of_le h, Nat.max_eq_right h]
          omega
        · rw [Nat.max_eq_left h]
          omega
  · simp only [expandRowTs, pairRecs_sessions_irrel, evRun_sessions_irrel,
      groupRecs_sessions_irrel, Nat.zero_max, Nat.max_self]

/-- C1 counterexample: the row with `page_views = 1`, `sessions = 2`
expands to 2 events, not `page_views = 1` events, so the claimed
unconditional equality of the event total with `page_views` fails. -/
theorem spec_C1_cex :
    numEvents (expandRowTs rowC1 "w" "h" "t" "" 0).1 = 2 ∧
    rowC1.page_views = 1 ∧ rowC1.sessions = 2 := ⟨rfl, rfl, rfl⟩

/-- C2: for a row in the remainder regime (`p % s ≠ 0`, `p > s` after
`s = max(sessions, 1)`), expansion yields exactly `s` sessions whose
per-session event counts, in creation order, are `s - 1` ones followed
by `1 + (p - s)` on the last-created session, for a total of exactly `p`
events. -/
theorem spec_C2 (r : AggregateRow) (wid host ts ref : String) (c : Nat)
    (hmod : r.page_views % max r.sessions 1 ≠ 0)
    (hgt : max r.sessions 1 < r.page_views) :
    numSessions (expandRowTs r wid host ts ref c).1 = max r.sessions 1 ∧
    eventCounts (expandRowTs r wid host ts ref c).1 =
      List.replicate (max r.sessions 1 - 1) 1 ++
        [1 + (r.page_views - max r.sessions 1)] ∧
    numEvents (expandRowTs r wid host ts ref c).1 = r.page_views := by
  have h1 : r.page_views ≠ max r.sessions 1 := fun hEq => hmod (by rw [hEq, Nat.mod_self])
  rw [expandRowTs_fst_rem r wid host ts ref c h1 hmod]
  have hs1 : 1 ≤ max r.sessions 1 := Nat.le_max_right r.sessions 1
  obtain ⟨t, ht⟩ : ∃ t, max r.sessions 1 = t + 1 := ⟨max r.sessions 1 - 1, by omega⟩
  refine ⟨?_, ?_, ?_⟩
  · rw [numSessions_append, numSessions_pairRecs, numSessions_evRun]
    omega
  · rw [ht]
    simp only [Nat.add_sub_cancel]
    exact eventCounts_pair_evRun r wid host ts ref t c (c + 2 * (t + 1))
      (r.page_views - (t + 1))
  · rw [numEvents_append, numEvents_pairRecs, numEvents_evRun]
    omega

/-- C2 witness at the spec's example row (`page_views = 5`,
`sessions = 2`): two sessions with event counts `[1, 4]`, five events in
total. -/
theorem spec_C2_witness :
    numSessions (expandRowTs rowC2 "w" "h" "t" "" 0).1 = 2 ∧
    eventCounts (expandRowTs rowC2 "w" "h" "t" "" 0).1 = [1, 4] ∧
    numEvents (expandRowTs rowC2 "w" "h" "t" "" 0).1 = 5 := by
  have h := spec_C2 rowC2 "w" "h" "t" "" 0 (by decide) (by decide)
  exact ⟨h.1, h.2.1, h.2.2⟩

/-- C3: for a row with `sessions = s > 0` and `page_views = k * s` with
`k ≥ 1`, expansion yields exactly `s` sessions each owning exactly `k`
events (`k = 1` is the equal branch, `k ≥ 2` the evenly divisible
branch). -/
theorem spec_C3 (r : AggregateRow) (wid host ts ref : String) (c k : Nat)
    (hs0 : 0 < r.sessions) (hk : 1 ≤ k) (hp : r.page_views = k * r.sessions) :
    numSessions (expandRowTs r wid host ts ref c).1 = r.sessions ∧
    eventCounts (expandRowTs r wid host ts ref c).1 = List.replicate r.sessions k := by
  have hs : max r.sessions 1 = r.sessions := Nat.max_eq_left hs0
  by_cases hk1 : k = 1
  · subst hk1
    rw [Nat.one_mul] at hp
    have heq : r.page_views = max r.sessions 1 := by rw [hp, hs]
    rw [expandRowTs_fst_equal r wid host ts ref c heq]
    refine ⟨?_, ?_⟩
    · rw [numSessions_pairRecs, hs]
    · rw [hs]
      obtain ⟨t, htv⟩ : ∃ t, r.sessions = t + 1 := ⟨r.sessions - 1, by omega⟩
      rw [htv]
      exact eventCounts_pairRecs r wid host ts ref t c
  · have hk2 : 2 ≤ k := by omega
    have hne : r.page_views ≠ max r.sessions 1 := by
      rw [hs]
      intro hEq
      have hEq' : r.sessions = k * r.sessions := hEq.symm.trans hp
      have hmul : 2 * r.sessions ≤ k * r.sessions := Nat.mul_le_mul_right r.sessions hk2
      rw [← hEq'] at hmul
      omega
    have hmod : r.page_views % max r.sessions 1 = 0 := by
      rw [hs, hp]
      exact Nat.mul_mod_left k r.sessions
    rw [expandRowTs_fst_div r wid host ts ref c hne hmod]
    have hg : r.page_views / max r.sessions 1 = k := by
      rw [hs, hp]
      exact Nat.mul_div_cancel k hs0
    rw [hg, hs]
    exact ⟨numSessions_groupRecs r wid host ts ref k r.sessions c,
      eventCounts_groupRecs r wid host ts ref k r.sessions c⟩

/-- C3 witness at the spec's example (`page_views = 6`, `sessions = 3`):
three sessions with two events each. -/
theorem spec_C3_witness :
    numSessions (expandRowTs rowC3 "w" "h" "t" "" 0).1 = 3 ∧
    eventCounts (expandRowTs rowC3 "w" "h" "t" "" 0).1 = [2, 2, 2] := by
  have h := spec_C3 rowC3 "w" "h" "t" "" 0 2 (by decide) (by decide) (by decide)
  exact ⟨h.1, h.2⟩

theorem countsAtLeastOne_append (a b : List Nat) :
    countsAtLeastOne (a ++ b) = (countsAtLeastOne a && countsAtLeastOne b) := by
  simp [countsAtLeastOne]

theorem countsAtLeastOne_replicate (n k : Nat) (h : 1 ≤ k) :
    countsAtLeastOne (List.replicate n k) = true := by
  simp only [countsAtLeastOne, List.all_eq_true]
  intro x hx
  rw [List.eq_of_mem_replicate hx]
  exact decide_eq_true h

/-- C4 (amended): whenever `page_views ≥ 1`, every synthetic session
produced by expansion owns at least one event.  A row with
`page_views = 0` is not treated as `page_views = 1`: it takes the evenly
divisible branch with group size `0 / max(sessions, 1) = 0`, so each of
its sessions receives zero events. -/
theorem spec_C4 (r : AggregateRow) (wid host ts ref : String) (c : Nat)
    (hp : 1 ≤ r.page_views) :
    countsAtLeastOne (eventCounts (expandRowTs r wid host ts ref c).1) = true := by
  have hs1 : 1 ≤ max r.sessions 1 := Nat.le_max_right r.sessions 1
  obtain ⟨t, ht⟩ : ∃ t, max r.sessions 1 = t + 1 := ⟨max r.sessions 1 - 1, by omega⟩
  by_cases h1 : r.page_views = max r.sessions 1
  · rw [expandRowTs_fst_equal r wid host ts ref c h1, ht,
      eventCounts_pairRecs r wid host ts ref t c]
    exact countsAtLeastOne_replicate (t + 1) 1 (by omega)
  · by_cases h2 : r.page_views % max r.sessions 1 = 0
    · rw [expandRowTs_fst_div r wid host ts ref c h1 h2,
        eventCounts_groupRecs r wid host ts ref (r.page_views / max r.sessions 1)
          (max r.sessions 1) c]
      have hg : 1 ≤ r.page_views / max r.sessions 1 := by
        by_contra hcon
        have hg0 : r.page_views / max r.sessions 1 = 0 :=
          Nat.lt_one_iff.mp (Nat.not_le.mp hcon)
        have hmul := Nat.div_mul_cancel (Nat.dvd_of_mod_eq_zero h2)
        rw [hg0, Nat.zero_mul] at hmul
        omega
      exact countsAtLeastOne_replicate (max r.sessions 1)
        (r.page_views / max r.sessions 1) hg
    · rw [expandRowTs_fst_rem r wid host ts ref c h1 h2, ht]
      simp only [Nat.add_sub_cancel]
      rw [eventCounts_pair_evRun r wid host ts ref t c (c + 2 * (t + 1))
        (r.page_views - (t + 1)), countsAtLeastOne_append]
      rw [countsAtLeastOne_replicate t 1 (by omega)]
      simp [countsAtLeastOne]

/-- C4 witness at a remainder row (`page_views = 7`, `sessions = 3`):
all per-session counts are at least one. -/
theorem spec_C4_witness :
    countsAtLeastOne (eventCounts (expandRowTs rowC4 "w" "h" "t" "" 0).1) = true :=
  spec_C4 rowC4 "w" "h" "t" "" 0 (by decide)

/-- C4 counterexample: the row with `page_views = 0`, `sessions = 1`
yields one session owning zero events — `page_views = 0` is not coerced
to 1 and the session receives no event. -/
theorem spec_C4_cex :
    eventCounts (expandRowTs rowC4x "w" "h" "t" "" 0).1 = [0] ∧
    numSessions (expandRowTs rowC4x "w" "h" "t" "" 0).1 = 1 ∧
    rowC4x.page_views = 0 := ⟨rfl, rfl, rfl⟩

/-- C5: all records expanded from one row share the row's
dimension-derived fields: every event agrees with every sibling event on
`url`, `title`, `referrer`, `created_at` (and `website_id`), and every
session agrees with every sibling session on `browser`, `os`, `device`,
`screen`, `country`, `created_at`, `hostname` (and `website_id`); only
the generated identifiers differ. -/
theorem spec_C5 (r : AggregateRow) (wid host ts ref : String) (c : Nat) :
    allSameEv (eventsOf (expandRowTs r wid host ts ref c).1) = true ∧
    allSameSess (sessionsOf (expandRowTs r wid host ts ref c).1) = true := by
  by_cases h1 : r.page_views = max r.sessions 1
  · rw [expandRowTs_fst_equal r wid host ts ref c h1]
    exact ⟨allSameEv_of_fromRow r wid ts ref _
        (eventFromRow_pairRecs r wid host ts ref (max r.sessions 1) c),
      allSameSess_of_fromRow r wid host ts _
        (sessionFromRow_pairRecs r wid host ts ref (max r.sessions 1) c)⟩
  · by_cases h2 : r.page_views % max r.sessions 1 = 0
    · rw [expandRowTs_fst_div r wid host ts ref c h1 h2]
      exact ⟨allSameEv_of_fromRow r wid ts ref _
          (eventFromRow_groupRecs r wid host ts ref _ (max r.sessions 1) c),
        allSameSess_of_fromRow r wid host ts _
          (sessionFromRow_groupRecs r wid host ts ref _ (max r.sessions 1) c)⟩
    · rw [expandRowTs_fst_rem r wid host ts ref c h1 h2]
      constructor
      · refine allSameEv_of_fromRow r wid ts ref _ ?_
        intro e he
        rw [eventsOf_append, List.mem_append] at he
        rcases he with he | he
        · exact eventFromRow_pairRecs r wid host ts ref (max r.sessions 1) c e he
        · exact eventFromRow_evRun r wid ts ref (c + 2 * (max r.sessions 1 - 1))
            (r.page_views - max r.sessions 1) (c + 2 * max r.sessions 1) e he
      · rw [sessionsOf_append, sessionsOf_evRun, List.append_nil]
        exact allSameSess_of_fromRow r wid host ts _
          (sessionFromRow_pairRecs r wid host ts ref (max r.sessions 1) c)

/-- C6: for a row with `0 < page_views < max(sessions, 1)`, the
remainder branch runs with an empty trailing loop: expansion produces
exactly `max(sessions, 1)` sessions, each owning exactly one event, for
a total of `max(sessions, 1)` events — strictly more than
`page_views`. -/
theorem spec_C6 (r : AggregateRow) (wid host ts ref : String) (c : Nat)
    (hp0 : 0 < r.page_views) (hlt : r.page_views < max r.sessions 1) :
    numSessions (expandRowTs r wid host ts ref c).1 = max r.sessions 1 ∧
    eventCounts (expandRowTs r wid host ts ref c).1 =
      List.replicate (max r.sessions 1) 1 ∧
    numEvents (expandRowTs r wid host ts ref c).1 = max r.sessions 1 ∧
    r.page_views < numEvents (expandRowTs r wid host ts ref c).1 := by
  have h1 : r.page_views ≠ max r.sessions 1 := by omega
  have hmod : r.page_views % max r.sessions 1 ≠ 0 := by
    rw [Nat.mod_eq_of_lt hlt]
    omega
  rw [expandRowTs_fst_rem r wid host ts ref c h1 hmod]
  have hm0 : r.page_views - max r.sessions 1 = 0 := Nat.sub_eq_zero_of_le (by omega)
  obtain ⟨t, ht⟩ : ∃ t, max r.sessions 1 = t + 1 :=
    ⟨max r.sessions 1 - 1, by have := Nat.le_max_right r.sessions 1; omega⟩
  refine ⟨?_, ?_, ?_, ?_⟩
  · rw [numSessions_append, numSessions_pairRecs, numSessions_evRun]
    omega
  · rw [hm0, ht]
    simp only [Nat.add_sub_cancel]
    have h := eventCounts_pair_evRun r wid host ts ref t c (c + 2 * (t + 1)) 0
    rw [h, List.replicate_succ']
  · rw [numEvents_append, numEvents_pairRecs, numEvents_evRun]
    omega
  · rw [numEvents_append, numEvents_pairRecs, numEvents_evRun]
    omega

/-- C6 witness at the row with `page_views = 1`, `sessions = 3`: three
sessions, each with one event, three events in total, exceeding the one
page view. -/
theorem spec_C6_witness :
    numSessions (expandRowTs rowC6 "w" "h" "t" "" 0).1 = 3 ∧
    eventCounts (expandRowTs rowC6 "w" "h" "t" "" 0).1 = [1, 1, 1] ∧
    numEvents (expandRowTs rowC6 "w" "h" "t" "" 0).1 = 3 ∧
    rowC6.page_views < numEvents (expandRowTs rowC6 "w" "h" "t" "" 0).1 := by
  have h := spec_C6 rowC6 "w" "h" "t" "" 0 (by decide) (by decide)
  exact ⟨h.1, h.2.1, h.2.2.1, h.2.2.2⟩

theorem quotesPaired_doubleQuotes : ∀ cs, quotesPaired (doubleQuotes cs) = true := by
  intro cs
  induction cs with
  | nil => rfl
  | cons c rest ih =>
    by_cases hc : c = '\''
    · subst hc
      simp [doubleQuotes, quotesPaired, quoteTail, ih]
    · simp [doubleQuotes, quotesPaired, hc, ih]

/-- C7 (amended): the escaping helper is a pure function of the input
and the maximum length.  A missing (`None`) or empty input yields the
empty string; otherwise the output is the input with every single quote
doubled, truncated to at most `n` characters.  Every quote of the output
appears doubled provided the doubled string is not truncated
(`n` at least its length); truncation can split a doubled pair, leaving
a trailing lone quote. -/
theorem spec_C7 (cs : List Char) (n : Nat) :
    safe_db_value none n = [] ∧
    safe_db_value (some []) n = [] ∧
    safe_db_value (some cs) n = (doubleQuotes cs).take n ∧
    ((doubleQuotes cs).length ≤ n → quotesPaired (safe_db_value (some cs) n) = true) := by
  have h3 : safe_db_value (some cs) n = (doubleQuotes cs).take n := by
    by_cases hcs : cs = []
    · subst hcs
      simp [safe_db_value, doubleQuotes]
    · simp [safe_db_value, hcs]
  refine ⟨rfl, rfl, h3, ?_⟩
  intro hlen
  rw [h3, List.take_of_length_le hlen]
  exact quotesPaired_doubleQuotes cs

/-- C7 witness: with no truncation (`n = 5`), the escaped form of
`a'` has all quotes doubled. -/
theorem spec_C7_witness :
    quotesPaired (safe_db_value (some ['a', '\'']) 5) = true :=
  (spec_C7 ['a', '\''] 5).2.2.2 (by decide)

/-- C7 counterexample: escaping `a'` with maximum length 2 doubles the
quote and then truncates the result back to `a'`, whose quote is no
longer doubled — truncation can split the doubled pair. -/
theorem spec_C7_cex :
    safe_db_value (some ['a', '\'']) 2 = ['a', '\''] ∧
    quotesPaired ['a', '\''] = false := ⟨rfl, rfl⟩

/-- C8: in the legacy referrer normalization the scheme is prepended
before validation and an invalid value normalizes to the empty string,
but the special case for the literal `"google"` is unreachable: the
comparison is made against the already-prefixed string, which always
starts with `https://` and so never equals `"google"`.  Consequently,
for every validator behaviour, the raw value `"google"` never normalizes
to `"https://google.com"` (it becomes `"https://google"` or the empty
string), contradicting the documented special case. -/
theorem spec_C8 (valid : String → Bool) (raw : String) :
    normalize_referrer_legacy valid raw =
      (if valid ("https://" ++ raw) then "https://" ++ raw else "") ∧
    (normalize_referrer_legacy valid "google" == "https://google.com") = false := by
  have hne : ∀ t : String, ("https://" ++ t) ≠ "google" := by
    intro t hEq
    have hlen := congrArg String.length hEq
    rw [String.length_append] at hlen
    have h8 : ("https://" : String).length = 8 := rfl
    have h6 : ("google" : String).length = 6 := rfl
    rw [h8, h6] at hlen
    omega
  have hmain : ∀ t : String, normalize_referrer_legacy valid t =
      (if valid ("https://" ++ t) then "https://" ++ t else "") := by
    intro t
    cases hv : valid ("https://" ++ t) with
    | false => simp [normalize_referrer_legacy, hv]
    | true => simp [normalize_referrer_legacy, hv, hne t]
  refine ⟨hmain raw, ?_⟩
  rw [hmain "google"]
  cases hvg : valid ("https://" ++ "google") with
  | false => simp
  | true =>
    simp only [if_true]
    decide

theorem startsWithL_append (pat : List Char) :
    ∀ xs ys, startsWithL xs pat = true → startsWithL (xs ++ ys) pat = true := by
  induction pat with
  | nil => intro xs ys _; cases xs ++ ys <;> rfl
  | cons p ps ih =>
    intro xs ys h
    cases xs with
    | nil => simp [startsWithL] at h
    | cons x xs' =>
      simp only [startsWithL, List.cons_append, Bool.and_eq_true] at h ⊢
      exact ⟨h.1, ih xs' ys h.2⟩

set_option maxRecDepth 16384 in
theorem isWatermark_watermark_stmt (wid : String) :
    isWatermark (watermark_stmt wid) = true := by
  rw [isWatermark, watermark_stmt, String.data_append, String.data_append]
  exact startsWithL_append _ _ _ (startsWithL_append _ _ _ (by decide))

set_option maxRecDepth 16384 in
/-- C9 (amended): in relational-insert mode, after all session and
event insert statements for a website are written, exactly one closing
watermark-update statement is emitted for that website, as the final
statement of the stream.  However, the statement recomputes the
watermark from the most recently inserted event row
(`ORDER BY event_id DESC LIMIT 1`), i.e. from insertion order, not from
the maximum event timestamp. -/
theorem spec_C9 (inserts : List String) (wid : String)
    (h : ∀ s ∈ inserts, isWatermark s = false) :
    List.countP (fun s => isWatermark s) (umami_output inserts wid) = 1 ∧
    (umami_output inserts wid).getLast? = some (watermark_stmt wid) ∧
    containsSub (watermarkPost.data) (("ORDER BY event_id DESC").data) = true := by
  refine ⟨?_, ?_, by decide⟩
  · rw [umami_output, List.countP_append]
    rw [List.countP_eq_zero.mpr (by intro a ha; simp [h a ha])]
    simp [List.countP_cons, isWatermark_watermark_stmt wid]
  · rw [umami_output]
    exact List.getLast?_concat _

set_option maxRecDepth 16384 in
/-- C9 witness: for a stream with one insert statement, the output ends
with exactly one watermark statement. -/
theorem spec_C9_witness :
    List.countP (fun s => isWatermark s) (umami_output insertsC9 "w") = 1 ∧
    (umami_output insertsC9 "w").getLast? = some (watermark_stmt "w") ∧
    containsSub (watermarkPost.data) (("ORDER BY event_id DESC").data) = true :=
  spec_C9 insertsC9 "w" (by decide)

set_option maxRecDepth 16384 in
/-- C9 counterexample: the emitted watermark statement selects the row
with the greatest `event_id` (insertion order) and contains no
maximum-timestamp computation — it does not recompute the watermark from
the maximum event timestamp written. -/
theorem spec_C9_cex :
    containsSub ((watermark_stmt "w").data) (("ORDER BY event_id DESC").data) = true ∧
    containsSub ((watermark_stmt "w").data) (("MAX(created_at)").data) = false ∧
    containsSub ((watermark_stmt "w").data) (("ORDER BY created_at").data) = false := by
  refine ⟨?_, ?_, ?_⟩ <;> decide

/-- C10 (amended): a `date_hour_minute` value that the `%Y%m%d%H%M`
parser rejects causes the timestamp conversion to raise a fatal parse
error that propagates: the whole transformation fails, the offending row
is never silently skipped, and no expanded records are produced.
However, not every value outside the compact 12-digit YYYYMMDDHHMM
shape is rejected: the month, day, hour and minute fields of the pattern
also match single digits, so some shorter strings parse successfully. -/
theorem spec_C10 (valid : String → Bool) (wid host : String) (rows : List AggregateRow)
    (c : Nat) (r : AggregateRow) (e : String) (hmem : r ∈ rows)
    (hconv : convert_ua_datetime r.date_hour_minute = .error e) :
    exceptFailed (transformRows valid wid host rows c) = true := by
  induction rows generalizing c with
  | nil => exact absurd hmem (List.not_mem_nil r)
  | cons a rest ih =>
    rcases List.mem_cons.mp hmem with h | h
    · subst h
      simp [transformRows, expandRow, hconv, exceptFailed]
    · cases hexp : expandRow valid wid host a c with
      | error e' => simp [transformRows, hexp, exceptFailed]
      | ok pr =>
        obtain ⟨recs, c'⟩ := pr
        have ht := ih c' h
        cases htr : transformRows valid wid host rest c' with
        | error e'' => simp [transformRows, hexp, htr, exceptFailed]
        | ok more =>
          rw [htr] at ht
          exact absurd ht (by simp [exceptFailed])

set_option maxRecDepth 16384 in
/-- C10 witness: a transformation over a single row whose
`date_hour_minute` is `2024-01-01 09:30` (not matching the pattern)
fails as a whole and produces no records. -/
theorem spec_C10_witness :
    exceptFailed (transformRows (fun _ => true) "w" "h" [rowC10] 0) = true :=
  spec_C10 (fun _ => true) "w" "h" [rowC10] 0 rowC10 "time data does not match format"
    (List.mem_singleton.mpr rfl) rfl

set_option maxRecDepth 16384 in
/-- C10 counterexample: the 11-character value `20241231235` does not
have the compact 12-digit YYYYMMDDHHMM shape, yet `strptime` parses it
successfully (month, day and hour match two digits, the minute matches
the single digit 5), so the conversion returns a timestamp instead of
raising a fatal parse error. -/
theorem spec_C10_cex :
    compactYmdHM "20241231235" = false ∧
    convert_ua_datetime "20241231235" = Except.ok "2024-12-31 23:05:00.000+0200" := by
  refine ⟨by decide, rfl⟩

end GA
